import Mathlib

/-!
Verification of the TOTP engine of the express-utils repository.

Shallow embedding of `src/core/rfc6238.ts` (`generateOwnOTP`, `verifyOwnTOTP`,
`OTPParams`) together with its supporting utilities (Base32 codec, counter
encoder, token padder, timing-safe comparator).  JavaScript strings and Node
`Buffer`s are both modelled as their byte sequences (`List Nat`, each entry
`< 256`); machine integers are `Nat`/`Int` with explicit `% 2 ^ w` where
wrap-around matters; a thrown exception is `none` of an `Option`.  The
platform HMAC primitive is an external collaborator and enters as an explicit
function parameter constrained by `GoodHmac`.
-/

namespace ExpressUtils

/-- The `k` low bits of `x`, most significant bit first. -/
def toBits : Nat → Nat → List Nat
  | 0, _ => []
  | k + 1, x => toBits k (x / 2) ++ [x % 2]

/-- Recombine a most-significant-first bit list into a natural number. -/
def fromBits (l : List Nat) : Nat := l.foldl (fun a b => 2 * a + b) 0

/-- RFC 4648 Base32 alphabet, `A`–`Z` then `2`–`7`. -/
def b32Alphabet : List Char :=
  ['A', 'B', 'C', 'D', 'E', 'F', 'G', 'H', 'I', 'J', 'K', 'L', 'M',
   'N', 'O', 'P', 'Q', 'R', 'S', 'T', 'U', 'V', 'W', 'X', 'Y', 'Z',
   '2', '3', '4', '5', '6', '7']

/-- Consume a most-significant-first bit stream five bits at a time, producing
the 5-bit values of the Base32 symbols; a final partial group is padded on the
right with zero bits, exactly as the streaming encoder flushes its
accumulator. -/
def bitsToSyms : List Nat → List Nat
  | b1 :: b2 :: b3 :: b4 :: b5 :: rest => fromBits [b1, b2, b3, b4, b5] :: bitsToSyms rest
  | [] => []
  | rest => [fromBits (rest ++ List.replicate (5 - rest.length) 0)]

/-- Consume a most-significant-first bit stream eight bits at a time, producing
bytes; an incomplete final group is discarded, which is how the decoder sizes
its output buffer from the symbol count. -/
def bitsToBytes : List Nat → List Nat
  | b1 :: b2 :: b3 :: b4 :: b5 :: b6 :: b7 :: b8 :: rest =>
      fromBits [b1, b2, b3, b4, b5, b6, b7, b8] :: bitsToBytes rest
  | _ => []

/-- Modelled from the spec: the Base32 encoder `b32FromBuf` of
`src/core/util/base32.ts` is imported by `src/core/rfc6238.ts` but its
implementation file is missing from the repository snapshot (only its unit
tests are present).  Spec §4.1: the bytes are emitted as 5-bit groups over the
RFC 4648 alphabet and the output is right-padded with `=` to a multiple of 8
characters; empty input yields the empty string. -/
def b32FromBuf (buf : List Nat) : List Char :=
  let syms := bitsToSyms (buf.flatMap (toBits 8))
  syms.map (fun v => b32Alphabet.getD v 'A') ++
    List.replicate ((8 - syms.length % 8) % 8) '='

/-- Value of one Base32 character: its index in the alphabet, or `none` for a
character outside the alphabet (the decoder's `DecodingError`). -/
def b32CharVal (c : Char) : Option Nat :=
  let i := b32Alphabet.indexOf c
  if i < 32 then some i else none

/-- Character values of a Base32 string, failing on the first character outside
the alphabet. -/
def decodeVals : List Char → Option (List Nat)
  | [] => some []
  | c :: rest =>
    match b32CharVal c with
    | none => none
    | some v => (decodeVals rest).map (fun t => v :: t)

/-- Modelled from the spec: the Base32 decoder `b32ToBuf` of
`src/core/util/base32.ts` (implementation missing from the snapshot; behaviour
fixed by spec §4.1 and the unit tests): trailing `=` padding is stripped, any
character outside the alphabet is a `DecodingError` (modelled as `none`), and
the output length is computed from the symbol count — only complete 8-bit
groups become bytes. -/
def b32ToBuf (s : List Char) : Option (List Nat) :=
  let core := (s.reverse.dropWhile (fun c => c == '=')).reverse
  match decodeVals core with
  | none => none
  | some vals => some (bitsToBytes (vals.flatMap (toBits 5)))

/-- The `k` low base-256 digits of `n`, most significant first. -/
def natToBytesBE : Nat → Nat → List Nat
  | 0, _ => []
  | k + 1, n => natToBytesBE k (n / 256) ++ [n % 256]

/-- Modelled from the spec: `numberToBuf` of `src/core/util/number-to-buf.ts`
(implementation missing from the snapshot; behaviour fixed by spec §4.2 and
the unit tests): the counter is written as an unsigned big-endian 8-byte
buffer; values past 2^64 wrap to zero and a negative input (never produced by
a real clock) yields the zero buffer. -/
def numberToBuf (n : Int) : List Nat := natToBytesBE 8 (n.toNat % 2 ^ 64)

/-- Fuelled decimal-digit writer (fuel `> n` suffices since `n / 10 < n`). -/
def decChars : Nat → Nat → List Nat
  | 0, _ => []
  | fuel + 1, n => if n < 10 then [48 + n] else decChars fuel (n / 10) ++ [48 + n % 10]

/-- Decimal digit characters (as bytes `48`–`57`) of `n`, most significant
first. -/
def natDecBytes (n : Nat) : List Nat := decChars (n + 1) n

/-- Modelled from the spec: `pad` of `src/core/util/pad.ts` (implementation
missing from the snapshot; behaviour fixed by spec §4.5): left-pad the decimal
representation of `otp` with `0` until its length equals `digits`. -/
def pad (otp digits : Nat) : List Nat :=
  let s := natDecBytes otp
  List.replicate (digits - s.length) 48 ++ s

/-- Numeric value of a decimal token string (bytes `48`–`57`), used to read a
generated token back as a number. -/
def tokenValue (token : List Nat) : Nat :=
  token.foldl (fun a c => 10 * a + (c - 48)) 0

/-- Node's `crypto.timingSafeEqual` on two byte buffers: it throws (`none`)
when the lengths differ and otherwise reports byte-for-byte equality
(computed in constant time by the platform). -/
def timingSafeEqualBuf (a b : List Nat) : Option Bool :=
  if a.length = b.length then some (decide (a = b)) else none

/-- Embedding of `timingSafeStringCompare` (`src/util`): the two strings are
turned into buffers (strings are modelled by their byte sequences; the
`normalize()` call is the identity on the ASCII data handled here) and
compared with `timingSafeEqual`; the `catch` turns the length-mismatch throw
into `false`. -/
def timingSafeStringCompare (a b : List Nat) : Bool :=
  (timingSafeEqualBuf a b).getD false

/-- The accumulate-the-XOR comparison loop described by spec §4.7, written
from the spec's words so the implementation can be compared against it. -/
def xorAccum (a b : List Nat) : Nat :=
  (a.zip b).foldl (fun acc p => acc ||| (p.1 ^^^ p.2)) 0

/-- The supported hash algorithms (the `OTPParams.algorithm` union type). -/
inductive Alg
  | SHA1
  | SHA256
  | SHA512
deriving DecidableEq

/-- Digest byte lengths per algorithm, as asserted by the `hmacDigest` unit
tests (spec §4.3). -/
def digestLength : Alg → Nat
  | .SHA1 => 20
  | .SHA256 => 32
  | .SHA512 => 64

/-- The HMAC engine is a platform primitive (spec §4.3); the theorems take it
as a parameter producing digests of the documented length whose entries are
bytes. -/
def GoodHmac (hmac : Alg → List Nat → List Nat → List Nat) : Prop :=
  ∀ alg key msg,
    (hmac alg key msg).length = digestLength alg ∧ ∀ b ∈ hmac alg key msg, b < 256

/-- Embedding of the `OTPParams` type of `src/core/rfc6238.ts`.  `issuer` and
`label` only feed the provisioning URI, which no claim concerns, so they are
omitted; `secret` is the byte sequence of the secret string; nothing is
validated anywhere in the source, faithfully reflected by plain `Nat`
fields. -/
structure OTPParams where
  algorithm : Alg
  digits : Nat
  period : Nat
  secret : List Nat

/-- The truncation offset: low nibble of the last digest byte,
`digest[digest.byteLength - 1] & 15` in the source. -/
def truncOffset (digest : List Nat) : Nat :=
  digest.getD (digest.length - 1) 0 &&& 15

/-- The 31-bit pre-reduction value of RFC 4226 dynamic truncation, combined
exactly as in the source: `((digest[offset] & 127) << 24) |
((digest[offset + 1] & 255) << 16) | ((digest[offset + 2] & 255) << 8) |
(digest[offset + 3] & 255)`. -/
def truncP (digest : List Nat) : Nat :=
  ((digest.getD (truncOffset digest) 0 &&& 127) <<< 24) |||
    ((digest.getD (truncOffset digest + 1) 0 &&& 255) <<< 16) |||
    ((digest.getD (truncOffset digest + 2) 0 &&& 255) <<< 8) |||
    (digest.getD (truncOffset digest + 3) 0 &&& 255)

/-- Embedding of `generateOwnOTP` of `src/core/rfc6238.ts` given the platform
HMAC `hmac`.  The secret bytes take the round trip `b32ToBuf (b32FromBuf
secret)` exactly as in the source (line 137); `none` models a thrown
`DecodingError`; the display-only provisioning URI is omitted and the returned
value is the padded reduced OTP token. -/
def generateOwnOTP (hmac : Alg → List Nat → List Nat → List Nat) (counter : Int)
    (p : OTPParams) : Option (List Nat) :=
  match b32ToBuf (b32FromBuf p.secret) with
  | none => none
  | some b32Secret =>
    let digest := hmac p.algorithm b32Secret (numberToBuf counter)
    some (pad (truncP digest % 10 ^ p.digits) p.digits)

/-- The current TOTP counter `Math.floor(Date.now() / 1000 / period)`; `nowMs`
is the millisecond clock reading, so this is `⌊unixSeconds / period⌋`.  The
`Nat` division is faithful only for `0 < period`: at `period = 0` the source's
floating-point division yields `Infinity` and the verification loop never
terminates, so every theorem about `verifyOwnTOTP` carries a `0 < period`
hypothesis. -/
def ownCounter (nowMs period : Nat) : Nat := nowMs / 1000 / period

/-- The candidate counters tried by `verifyOwnTOTP`, in increasing order:
`counter - window` up to `counter + window` inclusive. -/
def verifyCandidates (counter window : Nat) : List Int :=
  (List.range (2 * window + 1)).map
    (fun (k : Nat) => (counter : Int) - (window : Int) + (k : Int))

/-- The verification loop of `verifyOwnTOTP`: generate each candidate token in
increasing counter order and return `true` on the first timing-safe match; a
`none` from the generator (a thrown error) escapes the loop. -/
def verifyLoop (hmac : Alg → List Nat → List Nat → List Nat) (otp : List Nat)
    (p : OTPParams) : List Int → Option Bool
  | [] => some false
  | i :: rest =>
    match generateOwnOTP hmac i p with
    | none => none
    | some t =>
      if timingSafeStringCompare otp t then some true else verifyLoop hmac otp p rest

/-- Embedding of `verifyOwnTOTP` of `src/core/rfc6238.ts`: a token whose
length differs from `digits` is rejected before any comparison; otherwise the
counters of the window are tried in increasing order. -/
def verifyOwnTOTP (hmac : Alg → List Nat → List Nat → List Nat) (nowMs : Nat)
    (otp : List Nat) (window : Nat) (p : OTPParams) : Option Bool :=
  if otp.length ≠ p.digits then some false
  else verifyLoop hmac otp p (verifyCandidates (ownCounter nowMs p.period) window)

/-! Bit-codec lemmas. -/

theorem toBits_length : ∀ k x : Nat, (toBits k x).length = k
  | 0, _ => rfl
  | k + 1, x => by simp [toBits, toBits_length k]

theorem toBits_lt_two : ∀ k x : Nat, ∀ b ∈ toBits k x, b < 2
  | 0, _ => by simp [toBits]
  | k + 1, x => by
    intro b hb
    simp only [toBits, List.mem_append, List.mem_singleton] at hb
    rcases hb with h | h
    · exact toBits_lt_two k (x / 2) b h
    · omega

theorem fromBits_foldl (l : List Nat) :
    ∀ a : Nat, l.foldl (fun a b => 2 * a + b) a = a * 2 ^ l.length + fromBits l := by
  induction l with
  | nil => intro a; simp [fromBits]
  | cons b t ih =>
    intro a
    have hbt : fromBits (b :: t) = b * 2 ^ t.length + fromBits t := by
      simpa [fromBits] using ih b
    simp only [List.foldl_cons, List.length_cons, ih (2 * a + b), hbt, pow_succ]
    ring

theorem fromBits_append (l1 l2 : List Nat) :
    fromBits (l1 ++ l2) = fromBits l1 * 2 ^ l2.length + fromBits l2 := by
  simpa [fromBits, List.foldl_append] using fromBits_foldl l2 (fromBits l1)

theorem fromBits_toBits : ∀ k x : Nat, fromBits (toBits k x) = x % 2 ^ k
  | 0, x => by simp [toBits, fromBits, Nat.mod_one]
  | k + 1, x => by
    rw [toBits, fromBits_append, fromBits_toBits k (x / 2)]
    have h1 : fromBits [x % 2] = x % 2 := by simp [fromBits]
    rw [h1, pow_succ, Nat.mul_comm (2 ^ k) 2, Nat.mod_mul]
    simp
    ring

theorem fromBits_lt (l : List Nat) (h : ∀ b ∈ l, b < 2) : fromBits l < 2 ^ l.length := by
  induction l using List.reverseRecOn with
  | nil => simp [fromBits]
  | append_singleton t b ih =>
    have hb : b < 2 := h b (by simp)
    have ht := ih (fun x hx => h x (by simp [hx]))
    have he : fromBits (t ++ [b]) = fromBits t * 2 + b := by
      rw [fromBits_append]; simp [fromBits]
    rw [he]
    simp only [List.length_append, List.length_singleton, pow_succ]
    generalize 2 ^ t.length = e at *
    omega

theorem toBits_fromBits (l : List Nat) (h : ∀ b ∈ l, b < 2) :
    toBits l.length (fromBits l) = l := by
  induction l using List.reverseRecOn with
  | nil => simp [toBits]
  | append_singleton t b ih =>
    have hb : b < 2 := h b (by simp)
    have he : fromBits (t ++ [b]) = fromBits t * 2 + b := by
      rw [fromBits_append]; simp [fromBits]
    have hlen : (t ++ [b]).length = t.length + 1 := by simp
    rw [hlen, toBits, he]
    have hdiv : (fromBits t * 2 + b) / 2 = fromBits t := by omega
    have hmod : (fromBits t * 2 + b) % 2 = b := by omega
    rw [hdiv, hmod, ih (fun x hx => h x (by simp [hx]))]

/-! Base32 round-trip machinery. -/

theorem flatMap_toBits_lt (b : List Nat) : ∀ x ∈ b.flatMap (toBits 8), x < 2 := by
  intro x hx
  simp only [List.mem_flatMap] at hx
  obtain ⟨y, _, hxy⟩ := hx
  exact toBits_lt_two 8 y x hxy

theorem fromBits_pad_lt (l : List Nat) (h : ∀ x ∈ l, x < 2) (k : Nat)
    (hk : l.length + k = 5) : fromBits (l ++ List.replicate k 0) < 32 := by
  have hm : ∀ x ∈ l ++ List.replicate k 0, x < 2 := by
    intro x hx
    rcases List.mem_append.mp hx with hx | hx
    · exact h x hx
    · have := (List.mem_replicate.mp hx).2
      omega
  have := fromBits_lt _ hm
  have hlen : (l ++ List.replicate k 0).length = 5 := by simp; omega
  rw [hlen] at this
  omega

theorem bitsToSyms_lt : ∀ L : List Nat, (∀ x ∈ L, x < 2) → ∀ v ∈ bitsToSyms L, v < 32
  | b1 :: b2 :: b3 :: b4 :: b5 :: rest, h => by
    intro v hv
    simp only [bitsToSyms, List.mem_cons] at hv
    rcases hv with h5 | hrest
    · subst h5
      have : fromBits ([b1, b2, b3, b4, b5] ++ List.replicate 0 0) < 32 := by
        refine fromBits_pad_lt _ ?_ 0 (by simp)
        intro x hx
        apply h
        simp only [List.mem_cons, List.not_mem_nil, or_false] at hx
        simp only [List.mem_cons]
        tauto
      simpa using this
    · exact bitsToSyms_lt rest (fun x hx => h x (by simp [hx])) v hrest
  | [], _ => by simp [bitsToSyms]
  | [a], h => by
    intro v hv
    simp only [bitsToSyms, List.mem_singleton] at hv
    subst hv
    exact fromBits_pad_lt [a] h _ (by simp)
  | [a, b], h => by
    intro v hv
    simp only [bitsToSyms, List.mem_singleton] at hv
    subst hv
    exact fromBits_pad_lt [a, b] h _ (by simp)
  | [a, b, c], h => by
    intro v hv
    simp only [bitsToSyms, List.mem_singleton] at hv
    subst hv
    exact fromBits_pad_lt [a, b, c] h _ (by simp)
  | [a, b, c, d], h => by
    intro v hv
    simp only [bitsToSyms, List.mem_singleton] at hv
    subst hv
    exact fromBits_pad_lt [a, b, c, d] h _ (by simp)

theorem toBits5_fromBits_pad (l : List Nat) (h : ∀ x ∈ l, x < 2) (k : Nat)
    (hk : l.length + k = 5) :
    toBits 5 (fromBits (l ++ List.replicate k 0)) = l ++ List.replicate k 0 := by
  have hm : ∀ x ∈ l ++ List.replicate k 0, x < 2 := by
    intro x hx
    rcases List.mem_append.mp hx with hx | hx
    · exact h x hx
    · have := (List.mem_replicate.mp hx).2
      omega
  have hlen : (l ++ List.replicate k 0).length = 5 := by simp; omega
  have := toBits_fromBits _ hm
  rwa [hlen] at this

theorem bitsToSyms_flatMap : ∀ L : List Nat, (∀ x ∈ L, x < 2) →
    (bitsToSyms L).flatMap (toBits 5) = L ++ List.replicate ((5 - L.length % 5) % 5) 0
  | b1 :: b2 :: b3 :: b4 :: b5 :: rest, h => by
    have hsub : ∀ x ∈ rest, x < 2 := fun x hx => h x (by simp [hx])
    have hb : ∀ x ∈ [b1, b2, b3, b4, b5], x < 2 := by
      intro x hx
      apply h
      simp only [List.mem_cons, List.not_mem_nil, or_false] at hx
      simp only [List.mem_cons]
      tauto
    have h5 : toBits 5 (fromBits [b1, b2, b3, b4, b5]) = [b1, b2, b3, b4, b5] := by
      simpa using toBits5_fromBits_pad [b1, b2, b3, b4, b5] hb 0 (by simp)
    have hc : (5 - (b1 :: b2 :: b3 :: b4 :: b5 :: rest).length % 5) % 5 =
        (5 - rest.length % 5) % 5 := by
      simp only [List.length_cons]
      omega
    simp only [bitsToSyms, List.flatMap_cons, h5, bitsToSyms_flatMap rest hsub, hc]
    simp
  | [], _ => by simp [bitsToSyms]
  | [a], h => by
    have := toBits5_fromBits_pad [a] h 4 (by simp)
    simp only [bitsToSyms, List.flatMap_cons, List.flatMap_nil, List.append_nil]
    norm_num at this ⊢
    exact this
  | [a, b], h => by
    have := toBits5_fromBits_pad [a, b] h 3 (by simp)
    simp only [bitsToSyms, List.flatMap_cons, List.flatMap_nil, List.append_nil]
    norm_num at this ⊢
    exact this
  | [a, b, c], h => by
    have := toBits5_fromBits_pad [a, b, c] h 2 (by simp)
    simp only [bitsToSyms, List.flatMap_cons, List.flatMap_nil, List.append_nil]
    norm_num at this ⊢
    exact this
  | [a, b, c, d], h => by
    have := toBits5_fromBits_pad [a, b, c, d] h 1 (by simp)
    simp only [bitsToSyms, List.flatMap_cons, List.flatMap_nil, List.append_nil]
    norm_num at this ⊢
    exact this

theorem dropWhile_replicate_append (p : Char → Bool) (a : Char) (hp : p a = true) :
    ∀ (r : Nat) (l : List Char), (List.replicate r a ++ l).dropWhile p = l.dropWhile p
  | 0, l => by simp
  | r + 1, l => by
    simp [List.replicate_succ, List.dropWhile_cons, hp,
      dropWhile_replicate_append p a hp r l]

theorem strip_encoded (chars : List Char) (r : Nat)
    (h : ∀ c ∈ chars, (c == '=') = false) :
    ((chars ++ List.replicate r '=').reverse.dropWhile (fun c => c == '=')).reverse
      = chars := by
  rw [List.reverse_append, List.reverse_replicate,
    dropWhile_replicate_append _ '=' (by simp)]
  cases hc : chars.reverse with
  | nil =>
    have h0 : chars = [] := by simpa using congrArg List.reverse hc
    simp [h0]
  | cons a t =>
    have ha : a ∈ chars := by
      have : a ∈ chars.reverse := by
        rw [hc]; exact List.mem_cons_self a t
      exact List.mem_reverse.mp this
    rw [List.dropWhile_cons]
    simp only [h a ha, Bool.false_eq_true, if_false]
    rw [← hc, List.reverse_reverse]

theorem b32CharVal_alphabet : ∀ v < 32, b32CharVal (b32Alphabet.getD v 'A') = some v := by
  decide

theorem b32Alphabet_ne_pad : ∀ v < 32, (b32Alphabet.getD v 'A' == '=') = false := by
  decide

theorem decodeVals_map_alpha (l : List Nat) (h : ∀ v ∈ l, v < 32) :
    decodeVals (l.map (fun v => b32Alphabet.getD v 'A')) = some l := by
  induction l with
  | nil => simp [decodeVals]
  | cons v t ih =>
    have hv := b32CharVal_alphabet v (h v (by simp))
    have ht := ih (fun x hx => h x (by simp [hx]))
    simp only [List.map_cons, decodeVals]
    rw [hv]
    show Option.map (fun t => v :: t)
      (decodeVals (List.map (fun v => b32Alphabet.getD v 'A') t)) = some (v :: t)
    rw [ht]
    rfl

theorem bitsToBytes_short : ∀ t : List Nat, t.length < 8 → bitsToBytes t = []
  | [], _ => rfl
  | [_], _ => rfl
  | [_, _], _ => rfl
  | [_, _, _], _ => rfl
  | [_, _, _, _], _ => rfl
  | [_, _, _, _, _], _ => rfl
  | [_, _, _, _, _, _], _ => rfl
  | [_, _, _, _, _, _, _], _ => rfl
  | _ :: _ :: _ :: _ :: _ :: _ :: _ :: _ :: _, h => by
    simp only [List.length_cons] at h
    omega

theorem bitsToBytes_toBits8 (x : Nat) (R : List Nat) :
    bitsToBytes (toBits 8 x ++ R) = (x % 256) :: bitsToBytes R := by
  have hx : fromBits (toBits 8 x) = x % 256 := by
    simpa using fromBits_toBits 8 x
  calc bitsToBytes (toBits 8 x ++ R)
      = fromBits (toBits 8 x) :: bitsToBytes R := rfl
    _ = (x % 256) :: bitsToBytes R := by rw [hx]

theorem bitsToBytes_flatMap (b : List Nat) (t : List Nat) (ht : t.length < 8) :
    bitsToBytes (b.flatMap (toBits 8) ++ t) = b.map (· % 256) := by
  induction b with
  | nil => simpa using bitsToBytes_short t ht
  | cons x rest ih =>
    simp only [List.flatMap_cons, List.append_assoc, List.map_cons]
    rw [bitsToBytes_toBits8, ih]

theorem b32_roundTrip_mod (b : List Nat) :
    b32ToBuf (b32FromBuf b) = some (b.map (· % 256)) := by
  have hLbits := flatMap_toBits_lt b
  have hsyms := bitsToSyms_lt _ hLbits
  have hchars : ∀ c ∈ (bitsToSyms (b.flatMap (toBits 8))).map
      (fun v => b32Alphabet.getD v 'A'), (c == '=') = false := by
    intro c hc
    simp only [List.mem_map] at hc
    obtain ⟨v, hv, rfl⟩ := hc
    exact b32Alphabet_ne_pad v (hsyms v hv)
  simp only [b32FromBuf, b32ToBuf]
  rw [strip_encoded _ _ hchars, decodeVals_map_alpha _ hsyms]
  simp only [bitsToSyms_flatMap _ hLbits]
  rw [bitsToBytes_flatMap b _ (by simp only [List.length_replicate]; omega)]

/-! Decimal padder lemmas. -/

theorem decChars_fuel : ∀ f1 f2 n : Nat, n < f1 → n < f2 → decChars f1 n = decChars f2 n
  | 0, _, n, h1, _ => absurd h1 (by omega)
  | _ + 1, 0, n, _, h2 => absurd h2 (by omega)
  | f1 + 1, f2 + 1, n, h1, h2 => by
    by_cases h : n < 10
    · simp [decChars, h]
    · simp only [decChars, if_neg h]
      rw [decChars_fuel f1 f2 (n / 10) (by omega) (by omega)]

theorem natDecBytes_eq (n : Nat) :
    natDecBytes n =
      if n < 10 then [48 + n] else natDecBytes (n / 10) ++ [48 + n % 10] := by
  show decChars (n + 1) n = _
  rw [decChars]
  by_cases h : n < 10
  · simp [h]
  · rw [if_neg h, if_neg h]
    congr 1
    exact decChars_fuel n (n / 10 + 1) (n / 10) (by omega) (by omega)

theorem natDecBytes_length_le (k : Nat) :
    ∀ n : Nat, n < 10 ^ k → 1 ≤ k → (natDecBytes n).length ≤ k := by
  induction k with
  | zero => intro n _ hk; omega
  | succ k ih =>
    intro n hn _
    rw [natDecBytes_eq]
    by_cases h : n < 10
    · simp [h]
    · simp only [if_neg h, List.length_append, List.length_singleton]
      have hk1 : 1 ≤ k := by
        by_contra hc
        have hk0 : k = 0 := by omega
        subst hk0
        norm_num at hn
        omega
      have hd : n / 10 < 10 ^ k := by
        refine (Nat.div_lt_iff_lt_mul (by norm_num)).mpr ?_
        rw [← pow_succ]
        exact hn
      have := ih (n / 10) hd hk1
      omega

theorem pad_length (otp d : Nat) (h : otp < 10 ^ d) (hd : 1 ≤ d) :
    (pad otp d).length = d := by
  have := natDecBytes_length_le d otp h hd
  simp only [pad, List.length_append, List.length_replicate]
  omega

theorem tokenValue_replicate_zero (m : Nat) (l : List Nat) :
    (List.replicate m 48 ++ l).foldl (fun a c => 10 * a + (c - 48)) 0 =
      l.foldl (fun a c => 10 * a + (c - 48)) 0 := by
  induction m with
  | zero => simp
  | succ m ih => simpa [List.replicate_succ] using ih

theorem decValue_aux (n : Nat) :
    ∀ a : Nat, (natDecBytes n).foldl (fun a c => 10 * a + (c - 48)) a =
      a * 10 ^ (natDecBytes n).length + n := by
  induction n using Nat.strong_induction_on with
  | _ n ih =>
    intro a
    rw [natDecBytes_eq]
    by_cases h : n < 10
    · simp only [if_pos h, List.foldl_cons, List.foldl_nil, List.length_singleton]
      omega
    · simp only [if_neg h, List.foldl_append, List.foldl_cons, List.foldl_nil,
        List.length_append, List.length_singleton]
      rw [ih (n / 10) (by omega) a]
      have h1 : 10 * (a * 10 ^ (natDecBytes (n / 10)).length + n / 10) + (48 + n % 10 - 48) =
          a * (10 ^ (natDecBytes (n / 10)).length * 10) + (10 * (n / 10) + n % 10) := by
        have h2 : 48 + n % 10 - 48 = n % 10 := by omega
        rw [h2]
        ring
      rw [h1, Nat.div_add_mod, pow_succ]

theorem tokenValue_pad (n d : Nat) : tokenValue (pad n d) = n := by
  simp only [tokenValue, pad]
  rw [tokenValue_replicate_zero]
  simpa using decValue_aux n 0

/-! Bitwise-to-arithmetic bridges for the dynamic truncation. -/

theorem shiftLeft_lor_eq (a b k : Nat) (hb : b < 2 ^ k) :
    a <<< k ||| b = a * 2 ^ k + b := by
  apply Nat.eq_of_testBit_eq
  intro j
  rw [Nat.testBit_or, Nat.testBit_shiftLeft, Nat.mul_comm,
    Nat.testBit_mul_pow_two_add a hb j]
  by_cases h : j < k
  · simp [h, Nat.not_le.mpr h]
  · have hbj : Nat.testBit b j = false :=
      Nat.testBit_lt_two_pow (lt_of_lt_of_le hb (Nat.pow_le_pow_right (by omega) (by omega)))
    simp [h, Nat.le_of_not_lt, hbj]

theorem and_15 (x : Nat) : x &&& 15 = x % 16 := by
  have h := Nat.and_pow_two_sub_one_eq_mod x 4
  norm_num at h
  exact h

theorem and_127 (x : Nat) : x &&& 127 = x % 128 := by
  have h := Nat.and_pow_two_sub_one_eq_mod x 7
  norm_num at h
  exact h

theorem and_255 (x : Nat) : x &&& 255 = x % 256 := by
  have h := Nat.and_pow_two_sub_one_eq_mod x 8
  norm_num at h
  exact h

theorem truncOffset_le_15 (digest : List Nat) : truncOffset digest ≤ 15 := by
  rw [truncOffset, and_15]
  omega

theorem truncP_eq_arith (digest : List Nat) :
    truncP digest =
      (digest.getD (truncOffset digest) 0 % 128) * 2 ^ 24 +
        (digest.getD (truncOffset digest + 1) 0 % 256) * 2 ^ 16 +
        (digest.getD (truncOffset digest + 2) 0 % 256) * 2 ^ 8 +
        digest.getD (truncOffset digest + 3) 0 % 256 := by
  rw [truncP, and_127, and_255, and_255, and_255, Nat.lor_assoc, Nat.lor_assoc]
  have h8 : (digest.getD (truncOffset digest + 2) 0 % 256) <<< 8 |||
      digest.getD (truncOffset digest + 3) 0 % 256 =
      (digest.getD (truncOffset digest + 2) 0 % 256) * 2 ^ 8 +
        digest.getD (truncOffset digest + 3) 0 % 256 := by
    refine shiftLeft_lor_eq _ _ 8 ?_
    norm_num
    omega
  rw [h8]
  have h16 : (digest.getD (truncOffset digest + 1) 0 % 256) <<< 16 |||
      ((digest.getD (truncOffset digest + 2) 0 % 256) * 2 ^ 8 +
        digest.getD (truncOffset digest + 3) 0 % 256) =
      (digest.getD (truncOffset digest + 1) 0 % 256) * 2 ^ 16 +
        ((digest.getD (truncOffset digest + 2) 0 % 256) * 2 ^ 8 +
          digest.getD (truncOffset digest + 3) 0 % 256) := by
    refine shiftLeft_lor_eq _ _ 16 ?_
    norm_num
    omega
  rw [h16]
  have h24 : (digest.getD (truncOffset digest) 0 % 128) <<< 24 |||
      ((digest.getD (truncOffset digest + 1) 0 % 256) * 2 ^ 16 +
        ((digest.getD (truncOffset digest + 2) 0 % 256) * 2 ^ 8 +
          digest.getD (truncOffset digest + 3) 0 % 256)) =
      (digest.getD (truncOffset digest) 0 % 128) * 2 ^ 24 +
        ((digest.getD (truncOffset digest + 1) 0 % 256) * 2 ^ 16 +
          ((digest.getD (truncOffset digest + 2) 0 % 256) * 2 ^ 8 +
            digest.getD (truncOffset digest + 3) 0 % 256)) := by
    refine shiftLeft_lor_eq _ _ 24 ?_
    norm_num
    omega
  rw [h24]
  ring

theorem truncP_le_max (digest : List Nat) : truncP digest ≤ 2147483647 := by
  rw [truncP_eq_arith]
  norm_num
  omega

/-! Timing-safe comparator lemmas. -/

theorem timingSafeStringCompare_iff (a b : List Nat) :
    timingSafeStringCompare a b = true ↔ a = b := by
  simp only [timingSafeStringCompare, timingSafeEqualBuf]
  by_cases h : a.length = b.length
  · simp [h]
  · simp only [if_neg h, Option.getD_none, Bool.false_eq_true, false_iff]
    intro hab
    exact h (congrArg List.length hab)

theorem lor_eq_zero_iff (a b : Nat) : a ||| b = 0 ↔ a = 0 ∧ b = 0 := by
  constructor
  · intro h
    have hall : ∀ i, Nat.testBit a i = false ∧ Nat.testBit b i = false := by
      intro i
      have := congrArg (fun t => Nat.testBit t i) h
      simp only [Nat.testBit_or, Nat.zero_testBit] at this
      exact ⟨(Bool.or_eq_false_iff.mp this).1, (Bool.or_eq_false_iff.mp this).2⟩
    constructor
    · apply Nat.eq_of_testBit_eq
      intro i
      simp [(hall i).1]
    · apply Nat.eq_of_testBit_eq
      intro i
      simp [(hall i).2]
  · rintro ⟨rfl, rfl⟩
    simp

theorem xorAccum_foldl (l : List (Nat × Nat)) :
    ∀ s : Nat, (l.foldl (fun acc p => acc ||| (p.1 ^^^ p.2)) s = 0 ↔
      s = 0 ∧ ∀ p ∈ l, p.1 = p.2) := by
  induction l with
  | nil => simp
  | cons p t ih =>
    intro s
    simp only [List.foldl_cons, ih, lor_eq_zero_iff, Nat.xor_eq_zero, List.mem_cons]
    constructor
    · rintro ⟨⟨hs, hp⟩, ht⟩
      refine ⟨hs, fun q hq => ?_⟩
      rcases hq with rfl | hq
      · exact hp
      · exact ht q hq
    · rintro ⟨hs, hall⟩
      exact ⟨⟨hs, hall p (Or.inl rfl)⟩, fun q hq => hall q (Or.inr hq)⟩

theorem zip_forall_eq : ∀ a b : List Nat, a.length = b.length →
    ((∀ p ∈ a.zip b, p.1 = p.2) ↔ a = b)
  | [], [], _ => by simp
  | [], _ :: _, h => by simp at h
  | _ :: _, [], h => by simp at h
  | x :: s, y :: t, h => by
    have hlen : s.length = t.length := by simpa using h
    simp only [List.zip_cons_cons, List.mem_cons]
    constructor
    · intro hall
      have hxy : x = y := hall (x, y) (Or.inl rfl)
      have hst : s = t :=
        (zip_forall_eq s t hlen).mp (fun p hp => hall p (Or.inr hp))
      rw [hxy, hst]
    · intro he p hp
      injection he with h1 h2
      subst h1
      subst h2
      rcases hp with rfl | hp
      · rfl
      · exact (zip_forall_eq s s rfl).mpr rfl p hp

theorem xorAccum_zero_iff (a b : List Nat) (h : a.length = b.length) :
    xorAccum a b = 0 ↔ a = b := by
  rw [xorAccum, xorAccum_foldl]
  simp only [true_and]
  exact zip_forall_eq a b h

/-! Generator and verifier lemmas. -/

theorem map_mod_id (l : List Nat) (h : ∀ x ∈ l, x < 256) : l.map (· % 256) = l := by
  induction l with
  | nil => rfl
  | cons x t ih =>
    have hx : x % 256 = x := Nat.mod_eq_of_lt (h x (by simp))
    simp only [List.map_cons, hx, ih (fun y hy => h y (by simp [hy]))]

theorem generateOwnOTP_eq (hmac : Alg → List Nat → List Nat → List Nat) (c : Int)
    (p : OTPParams) :
    generateOwnOTP hmac c p =
      some (pad (truncP (hmac p.algorithm (p.secret.map (· % 256)) (numberToBuf c))
        % 10 ^ p.digits) p.digits) := by
  unfold generateOwnOTP
  rw [b32_roundTrip_mod]

theorem generateOwnOTP_eq_of_bytes (hmac : Alg → List Nat → List Nat → List Nat)
    (c : Int) (p : OTPParams) (hb : ∀ x ∈ p.secret, x < 256) :
    generateOwnOTP hmac c p =
      some (pad (truncP (hmac p.algorithm p.secret (numberToBuf c))
        % 10 ^ p.digits) p.digits) := by
  rw [generateOwnOTP_eq, map_mod_id p.secret hb]

theorem generateOwnOTP_length (hmac : Alg → List Nat → List Nat → List Nat)
    (c : Int) (p : OTPParams) (hd : 1 ≤ p.digits) (tok : List Nat)
    (h : generateOwnOTP hmac c p = some tok) : tok.length = p.digits := by
  rw [generateOwnOTP_eq] at h
  injection h with h
  subst h
  exact pad_length _ _ (Nat.mod_lt _ (pow_pos (by norm_num) _)) hd

theorem verifyLoop_cons (hmac : Alg → List Nat → List Nat → List Nat)
    (otp : List Nat) (p : OTPParams) (i : Int) (rest : List Int) (t : List Nat)
    (h : generateOwnOTP hmac i p = some t) :
    verifyLoop hmac otp p (i :: rest) =
      if timingSafeStringCompare otp t then some true
      else verifyLoop hmac otp p rest := by
  simp only [verifyLoop, h]

theorem verifyLoop_iff (hmac : Alg → List Nat → List Nat → List Nat)
    (otp : List Nat) (p : OTPParams) :
    ∀ is : List Int, (verifyLoop hmac otp p is = some true ↔
      ∃ i ∈ is, generateOwnOTP hmac i p = some otp)
  | [] => by simp [verifyLoop]
  | i :: rest => by
    obtain ⟨t, ht⟩ : ∃ t, generateOwnOTP hmac i p = some t :=
      ⟨_, generateOwnOTP_eq hmac i p⟩
    rw [verifyLoop_cons hmac otp p i rest t ht]
    by_cases hc : timingSafeStringCompare otp t = true
    · have hot : otp = t := (timingSafeStringCompare_iff otp t).mp hc
      subst hot
      simp only [hc, if_true]
      constructor
      · intro _
        exact ⟨i, by simp, ht⟩
      · intro _
        trivial
    · have hcf : timingSafeStringCompare otp t = false := by
        revert hc
        cases timingSafeStringCompare otp t <;> simp
      rw [hcf]
      simp only [Bool.false_eq_true, if_false]
      rw [verifyLoop_iff hmac otp p rest]
      constructor
      · rintro ⟨j, hj, hgen⟩
        exact ⟨j, by simp [hj], hgen⟩
      · rintro ⟨j, hj, hgen⟩
        rcases List.mem_cons.mp hj with rfl | hj
        · rw [ht] at hgen
          injection hgen with he
          subst he
          exact absurd ((timingSafeStringCompare_iff t t).mpr rfl) hc
        · exact ⟨j, hj, hgen⟩

theorem verifyCandidates_mem (c w : Nat) (i : Int) :
    i ∈ verifyCandidates c w ↔ (c : Int) - w ≤ i ∧ i ≤ (c : Int) + w := by
  unfold verifyCandidates
  rw [List.mem_map]
  constructor
  · rintro ⟨k, hk, rfl⟩
    rw [List.mem_range] at hk
    omega
  · rintro ⟨h1, h2⟩
    refine ⟨(i - ((c : Int) - w)).toNat, ?_, ?_⟩
    · rw [List.mem_range]
      omega
    · omega

theorem verifyLoop_isSome (hmac : Alg → List Nat → List Nat → List Nat)
    (otp : List Nat) (p : OTPParams) :
    ∀ is : List Int, (verifyLoop hmac otp p is).isSome = true
  | [] => rfl
  | i :: rest => by
    obtain ⟨t, ht⟩ : ∃ t, generateOwnOTP hmac i p = some t :=
      ⟨_, generateOwnOTP_eq hmac i p⟩
    rw [verifyLoop_cons hmac otp p i rest t ht]
    by_cases hc : timingSafeStringCompare otp t = true
    · simp [hc]
    · have hcf : timingSafeStringCompare otp t = false := by
        revert hc
        cases timingSafeStringCompare otp t <;> simp
      rw [hcf]
      simpa using verifyLoop_isSome hmac otp p rest

/-! Claim theorems. -/

/-- C1: for every non-negative window, every well-formed parameter set (the
data model has `digits ∈ [6,10]` and `period > 0`; only `1 ≤ digits` and
`0 < period` are needed) and every candidate token, `verifyOwnTOTP` returns
`true` exactly when the token equals the one generated for some counter
`currentCounter + i` with `i ∈ [-window, window]`, where
`currentCounter = ⌊unixSeconds / period⌋` (`ownCounter`); the candidates are
tried in increasing order with the first match winning (`verifyCandidates`,
`verifyLoop`), and a token whose length differs from `digits` yields `false`
before any comparison. -/
theorem verifyOwnTOTP_window_correct (hmac : Alg → List Nat → List Nat → List Nat)
    (nowMs window : Nat) (p : OTPParams) (otp : List Nat)
    (hd : 1 ≤ p.digits) (_hp : 0 < p.period) :
    (verifyOwnTOTP hmac nowMs otp window p = some true ↔
      ∃ i : Int, -(window : Int) ≤ i ∧ i ≤ (window : Int) ∧
        generateOwnOTP hmac ((ownCounter nowMs p.period : Int) + i) p = some otp) ∧
    (otp.length ≠ p.digits → verifyOwnTOTP hmac nowMs otp window p = some false) := by
  by_cases hl : otp.length = p.digits
  · have hmain : verifyOwnTOTP hmac nowMs otp window p =
        verifyLoop hmac otp p (verifyCandidates (ownCounter nowMs p.period) window) := by
      simp [verifyOwnTOTP, hl]
    constructor
    · rw [hmain, verifyLoop_iff]
      constructor
      · rintro ⟨i, hi, hgen⟩
        rw [verifyCandidates_mem] at hi
        refine ⟨i - (ownCounter nowMs p.period : Int), by omega, by omega, ?_⟩
        have he : (ownCounter nowMs p.period : Int) +
            (i - (ownCounter nowMs p.period : Int)) = i := by ring
        rw [he]
        exact hgen
      · rintro ⟨j, h1, h2, hgen⟩
        exact ⟨(ownCounter nowMs p.period : Int) + j,
          (verifyCandidates_mem _ _ _).mpr ⟨by omega, by omega⟩, hgen⟩
    · intro hne
      exact absurd hl hne
  · have hfalse : verifyOwnTOTP hmac nowMs otp window p = some false := by
      simp [verifyOwnTOTP, hl]
    constructor
    · rw [hfalse]
      constructor
      · intro habs
        exact absurd habs (by simp)
      · rintro ⟨j, _, _, hgen⟩
        exact absurd (generateOwnOTP_length hmac _ p hd otp hgen) hl
    · intro _
      exact hfalse

/-- C1 witness: concrete instantiation with the all-zero HMAC stub, a
6-digit/30-second parameter set, window 1 and the token `"000000"`. -/
theorem verifyOwnTOTP_window_correct_witness :
    1 ≤ (OTPParams.mk Alg.SHA1 6 30 [1, 2, 3]).digits ∧
    0 < (OTPParams.mk Alg.SHA1 6 30 [1, 2, 3]).period ∧
    ((verifyOwnTOTP (fun a _ _ => List.replicate (digestLength a) 0) 59000
        [48, 48, 48, 48, 48, 48] 1 (OTPParams.mk Alg.SHA1 6 30 [1, 2, 3]) = some true ↔
      ∃ i : Int, -((1 : Nat) : Int) ≤ i ∧ i ≤ ((1 : Nat) : Int) ∧
        generateOwnOTP (fun a _ _ => List.replicate (digestLength a) 0)
          ((ownCounter 59000 (OTPParams.mk Alg.SHA1 6 30 [1, 2, 3]).period : Int) + i)
          (OTPParams.mk Alg.SHA1 6 30 [1, 2, 3]) = some [48, 48, 48, 48, 48, 48]) ∧
    ([48, 48, 48, 48, 48, 48].length ≠ (OTPParams.mk Alg.SHA1 6 30 [1, 2, 3]).digits →
      verifyOwnTOTP (fun a _ _ => List.replicate (digestLength a) 0) 59000
        [48, 48, 48, 48, 48, 48] 1 (OTPParams.mk Alg.SHA1 6 30 [1, 2, 3]) = some false)) :=
  ⟨by decide, by decide,
    verifyOwnTOTP_window_correct (fun a _ _ => List.replicate (digestLength a) 0)
      59000 1 (OTPParams.mk Alg.SHA1 6 30 [1, 2, 3]) [48, 48, 48, 48, 48, 48]
      (by decide) (by decide)⟩

/-- C2: for every digest `D` of a supported length (20, 32 or 64 bytes) and
every `digits ∈ [6, 10]`, the reduced OTP of `generateOwnOTP` (the source's
shift-and-or combine, `truncP`) equals the RFC 4226 dynamic truncation: with
`offset = D[L-1] & 0x0F`, the four bytes at the offset are combined big-endian
after the `& 0x7F` mask on the first, then reduced `mod 10^digits`, and the
result always lies in `[0, 10^digits - 1]`. -/
theorem generateOwnOTP_reduction (D : List Nat) (digits : Nat)
    (hL : D.length = 20 ∨ D.length = 32 ∨ D.length = 64)
    (hB : ∀ b ∈ D, b < 256) (_h6 : 6 ≤ digits) (_h10 : digits ≤ 10) :
    truncP D % 10 ^ digits =
      ((D.getD (truncOffset D) 0 % 128) * 2 ^ 24 +
        D.getD (truncOffset D + 1) 0 * 2 ^ 16 +
        D.getD (truncOffset D + 2) 0 * 2 ^ 8 +
        D.getD (truncOffset D + 3) 0) % 10 ^ digits ∧
    truncP D % 10 ^ digits < 10 ^ digits := by
  have hoff := truncOffset_le_15 D
  have hget : ∀ k : Nat, truncOffset D + k < D.length →
      D.getD (truncOffset D + k) 0 % 256 = D.getD (truncOffset D + k) 0 := by
    intro k hk
    refine Nat.mod_eq_of_lt ?_
    rw [List.getD_eq_getElem D 0 hk]
    exact hB _ (List.getElem_mem hk)
  have hin : ∀ k : Nat, k ≤ 3 → truncOffset D + k < D.length := by
    intro k hk
    rcases hL with h | h | h <;> omega
  constructor
  · rw [truncP_eq_arith, hget 1 (hin 1 (by omega)), hget 2 (hin 2 (by omega)),
      hget 3 (hin 3 (by omega))]
  · exact Nat.mod_lt _ (pow_pos (by norm_num) _)

/-- C2 witness: a concrete 20-byte digest (bytes 0..19, offset `19 & 15 = 3`)
with `digits = 6`. -/
theorem generateOwnOTP_reduction_witness :
    truncP [0, 1, 2, 3, 4, 5, 6, 7, 8, 9, 10, 11, 12, 13, 14, 15, 16, 17, 18, 19]
        % 10 ^ 6 =
      (([0, 1, 2, 3, 4, 5, 6, 7, 8, 9, 10, 11, 12, 13, 14, 15, 16, 17, 18,
          19].getD (truncOffset [0, 1, 2, 3, 4, 5, 6, 7, 8, 9, 10, 11, 12, 13, 14,
          15, 16, 17, 18, 19]) 0 % 128) * 2 ^ 24 +
        [0, 1, 2, 3, 4, 5, 6, 7, 8, 9, 10, 11, 12, 13, 14, 15, 16, 17, 18,
          19].getD (truncOffset [0, 1, 2, 3, 4, 5, 6, 7, 8, 9, 10, 11, 12, 13, 14,
          15, 16, 17, 18, 19] + 1) 0 * 2 ^ 16 +
        [0, 1, 2, 3, 4, 5, 6, 7, 8, 9, 10, 11, 12, 13, 14, 15, 16, 17, 18,
          19].getD (truncOffset [0, 1, 2, 3, 4, 5, 6, 7, 8, 9, 10, 11, 12, 13, 14,
          15, 16, 17, 18, 19] + 2) 0 * 2 ^ 8 +
        [0, 1, 2, 3, 4, 5, 6, 7, 8, 9, 10, 11, 12, 13, 14, 15, 16, 17, 18,
          19].getD (truncOffset [0, 1, 2, 3, 4, 5, 6, 7, 8, 9, 10, 11, 12, 13, 14,
          15, 16, 17, 18, 19] + 3) 0) % 10 ^ 6 ∧
    truncP [0, 1, 2, 3, 4, 5, 6, 7, 8, 9, 10, 11, 12, 13, 14, 15, 16, 17, 18, 19]
        % 10 ^ 6 < 10 ^ 6 :=
  generateOwnOTP_reduction
    [0, 1, 2, 3, 4, 5, 6, 7, 8, 9, 10, 11, 12, 13, 14, 15, 16, 17, 18, 19] 6
    (by decide) (by decide) (by decide) (by decide)

/-- C3: for every digest produced by a supported algorithm (`GoodHmac` gives
the documented lengths 20/32/64), the truncation offset is at most 15, so
`offset + 3 < digestLength` and the 4-byte slice never leaves the digest. -/
theorem truncOffset_in_bounds (hmac : Alg → List Nat → List Nat → List Nat)
    (hgood : GoodHmac hmac) (alg : Alg) (key msg : List Nat) :
    truncOffset (hmac alg key msg) ≤ 15 ∧
    truncOffset (hmac alg key msg) + 3 < (hmac alg key msg).length := by
  have h1 := truncOffset_le_15 (hmac alg key msg)
  have h2 := (hgood alg key msg).1
  refine ⟨h1, ?_⟩
  rw [h2]
  cases alg <;> simp [digestLength] <;> omega

/-- C3 witness: the all-zero HMAC stub satisfies `GoodHmac`, instantiated at
SHA1 with empty key and message. -/
theorem truncOffset_in_bounds_witness :
    truncOffset (List.replicate (digestLength Alg.SHA1) 0) ≤ 15 ∧
    truncOffset (List.replicate (digestLength Alg.SHA1) 0) + 3 <
      (List.replicate (digestLength Alg.SHA1) 0).length :=
  truncOffset_in_bounds (fun a _ _ => List.replicate (digestLength a) 0)
    (by
      intro alg key msg
      refine ⟨by simp, ?_⟩
      intro b hb
      have := List.eq_of_mem_replicate hb
      omega)
    Alg.SHA1 [] []

/-- C4: evaluating the engine at the malformed Base32 secret `"1"` (byte 49,
a character outside the RFC 4648 alphabet): no `DecodingError` is raised.
The source line 137 computes `b32ToBuf(b32FromBuf(Buffer.from(secret)))` — it
re-encodes the raw secret bytes and decodes them back, so decoding always
succeeds and generation returns a token built from the raw-byte key (here
`"000000"` under the all-zero HMAC stub).  The claim (and spec §7/§8), which
requires a `DecodingError` before any digest for such a secret, describes the
evident intent — the secret is documented as Base32 and is never actually
decoded — so this is a defect of the code, not of the claim. -/
theorem generateOwnOTP_malformed_secret_returns_token :
    generateOwnOTP (fun a _ _ => List.replicate (digestLength a) 0) 0
      (OTPParams.mk Alg.SHA1 6 30 [49]) = some [48, 48, 48, 48, 48, 48] := by
  decide

/-- C5: Base32 round trip: decoding the encoding of any byte sequence
(including the empty one) gives back exactly that sequence, and the encoded
string is right-padded with `=` to a multiple of 8 characters. -/
theorem b32_roundTrip (b : List Nat) (hb : ∀ x ∈ b, x < 256) :
    b32ToBuf (b32FromBuf b) = some b ∧ (b32FromBuf b).length % 8 = 0 := by
  constructor
  · rw [b32_roundTrip_mod, map_mod_id b hb]
  · simp only [b32FromBuf, List.length_append, List.length_map, List.length_replicate]
    omega

/-- C5 witness: the bytes of `"Hello, World!"`, the vector used by the
repository's Base32 unit tests. -/
theorem b32_roundTrip_witness :
    b32ToBuf (b32FromBuf [72, 101, 108, 108, 111, 44, 32, 87, 111, 114, 108, 100, 33]) =
      some [72, 101, 108, 108, 111, 44, 32, 87, 111, 114, 108, 100, 33] ∧
    (b32FromBuf [72, 101, 108, 108, 111, 44, 32, 87, 111, 114, 108, 100, 33]).length
      % 8 = 0 :=
  b32_roundTrip [72, 101, 108, 108, 111, 44, 32, 87, 111, 114, 108, 100, 33]
    (by decide)

/-- C6: the timing-safe comparator returns `false` whenever the byte lengths
differ, and otherwise returns `true` exactly when the two byte sequences are
equal — equivalently, when the accumulated XOR difference over all byte
positions (`xorAccum`, the spec's description) is zero. -/
theorem timingSafeStringCompare_spec (a b : List Nat) :
    (a.length ≠ b.length → timingSafeStringCompare a b = false) ∧
    (timingSafeStringCompare a b = true ↔ a = b) ∧
    (a.length = b.length → (timingSafeStringCompare a b = true ↔ xorAccum a b = 0)) := by
  refine ⟨?_, timingSafeStringCompare_iff a b, ?_⟩
  · intro h
    simp [timingSafeStringCompare, timingSafeEqualBuf, h]
  · intro h
    rw [timingSafeStringCompare_iff, xorAccum_zero_iff a b h]

/-- C6 witness: the spec's three concrete examples, `"abc"`/`"abc"`,
`"abc"`/`"abd"` and `"abc"`/`"ab"` as byte sequences. -/
theorem timingSafeStringCompare_spec_witness :
    timingSafeStringCompare [97, 98, 99] [97, 98, 99] = true ∧
    timingSafeStringCompare [97, 98, 99] [97, 98, 100] = false ∧
    timingSafeStringCompare [97, 98, 99] [97, 98] = false := by
  refine ⟨(timingSafeStringCompare_spec [97, 98, 99] [97, 98, 99]).2.1.mpr rfl, ?_,
    (timingSafeStringCompare_spec [97, 98, 99] [97, 98]).1 (by decide)⟩
  have h := (timingSafeStringCompare_spec [97, 98, 99] [97, 98, 100]).2.1
  cases hc : timingSafeStringCompare [97, 98, 99] [97, 98, 100]
  · rfl
  · exact absurd (h.mp hc) (by decide)

/-- C7: for `digits ∈ [6, 10]`, every token returned by `generateOwnOTP` is a
decimal string of length exactly `digits` (left-padded with `0`; the reducer
guarantees `otp < 10^digits`). -/
theorem generateOwnOTP_token_length (hmac : Alg → List Nat → List Nat → List Nat)
    (c : Int) (p : OTPParams) (h6 : 6 ≤ p.digits) (_h10 : p.digits ≤ 10)
    (tok : List Nat) (h : generateOwnOTP hmac c p = some tok) :
    tok.length = p.digits :=
  generateOwnOTP_length hmac c p (by omega) tok h

/-- C7 witness: the all-zero HMAC stub at counter 0 with 6 digits produces the
6-character token `"000000"`. -/
theorem generateOwnOTP_token_length_witness :
    ([48, 48, 48, 48, 48, 48] : List Nat).length =
      (OTPParams.mk Alg.SHA1 6 30 [1, 2, 3]).digits :=
  generateOwnOTP_token_length (fun a _ _ => List.replicate (digestLength a) 0) 0
    (OTPParams.mk Alg.SHA1 6 30 [1, 2, 3]) (by decide) (by decide)
    [48, 48, 48, 48, 48, 48] (by decide)

/-- C8 counterexample: with `digits = 0` (outside [6, 10]) and `period = 0`
(non-positive), no `ConfigurationError` arises anywhere: `generateOwnOTP`
proceeds with these parameters and returns the token `"0"`. -/
theorem otpParams_invalid_accepted :
    generateOwnOTP (fun a _ _ => List.replicate (digestLength a) 0) 0
      (OTPParams.mk Alg.SHA1 0 0 [1, 2, 3]) = some [48] := by
  decide

/-- C8 amended: `OTPParams` carries no run-time validation: the algorithm
field is constrained to SHA1/SHA256/SHA512 only by its static type, and no
check of `period` or `digits` exists — never a `ConfigurationError`.
`generateOwnOTP` proceeds and returns a token for every parameter value
(including a digit count outside [6, 10] and a non-positive period), and
`verifyOwnTOTP` likewise proceeds and returns a boolean for every parameter
set with a positive period (at `period = 0` the source's counter is `Infinity`
and the window loop diverges rather than raising an error, which the
terminating model does not cover). -/
theorem otpParams_no_validation (hmac : Alg → List Nat → List Nat → List Nat)
    (c : Int) (nowMs window : Nat) (otp : List Nat) (p : OTPParams) :
    (generateOwnOTP hmac c p).isSome = true ∧
    (0 < p.period → (verifyOwnTOTP hmac nowMs otp window p).isSome = true) := by
  constructor
  · rw [generateOwnOTP_eq]
    rfl
  · intro _
    rw [verifyOwnTOTP]
    by_cases hl : otp.length ≠ p.digits
    · simp [hl]
    · simp only [hl, if_false]
      exact verifyLoop_isSome hmac otp p _

/-- C8 amended-claim witness: generation succeeds with `digits = 0` and
`period = 0`, and verification returns a boolean with the invalid `digits = 0`
under a positive period. -/
theorem otpParams_no_validation_witness :
    (generateOwnOTP (fun a _ _ => List.replicate (digestLength a) 0) 0
      (OTPParams.mk Alg.SHA1 0 0 [1, 2, 3])).isSome = true ∧
    0 < (OTPParams.mk Alg.SHA1 0 30 [1, 2, 3]).period ∧
    (verifyOwnTOTP (fun a _ _ => List.replicate (digestLength a) 0) 59000
      [49, 50] 1 (OTPParams.mk Alg.SHA1 0 30 [1, 2, 3])).isSome = true :=
  ⟨(otpParams_no_validation (fun a _ _ => List.replicate (digestLength a) 0) 0
      59000 1 [49, 50] (OTPParams.mk Alg.SHA1 0 0 [1, 2, 3])).1,
    by decide,
    (otpParams_no_validation (fun a _ _ => List.replicate (digestLength a) 0) 0
      59000 1 [49, 50] (OTPParams.mk Alg.SHA1 0 30 [1, 2, 3])).2 (by decide)⟩

/-- C9: the HMAC key computed by `generateOwnOTP` is the literal byte sequence
of the secret string: `b32ToBuf (b32FromBuf secret)` is the identity on byte
sequences, so the digest is keyed by the raw secret bytes — not by any Base32
decoding of the secret — and no decoding failure is raised for any secret
string whatsoever. -/
theorem generateOwnOTP_key_raw (hmac : Alg → List Nat → List Nat → List Nat)
    (c : Int) (p : OTPParams) (hb : ∀ x ∈ p.secret, x < 256) :
    generateOwnOTP hmac c p =
      some (pad (truncP (hmac p.algorithm p.secret (numberToBuf c)) % 10 ^ p.digits)
        p.digits) ∧
    b32ToBuf (b32FromBuf p.secret) = some p.secret :=
  ⟨generateOwnOTP_eq_of_bytes hmac c p hb,
    by rw [b32_roundTrip_mod, map_mod_id p.secret hb]⟩

/-- C9 witness: the malformed-Base32 secret `"1"` (byte 49) under the all-zero
HMAC stub: the key round-trips to the raw byte 49 and generation succeeds. -/
theorem generateOwnOTP_key_raw_witness :
    generateOwnOTP (fun a _ _ => List.replicate (digestLength a) 0) 1
      (OTPParams.mk Alg.SHA256 8 60 [49]) =
      some (pad (truncP ((fun (a : Alg) (_ _ : List Nat) =>
          List.replicate (digestLength a) 0) Alg.SHA256 [49] (numberToBuf 1))
        % 10 ^ 8) 8) ∧
    b32ToBuf (b32FromBuf [49]) = some [49] :=
  generateOwnOTP_key_raw (fun a _ _ => List.replicate (digestLength a) 0) 1
    (OTPParams.mk Alg.SHA256 8 60 [49]) (by decide)

/-- C10: the `& 127` mask on the first extracted byte bounds the combined
pre-reduction value by `2^31 - 1 = 2147483647` for every digest, and for
`digits = 10` the generated token, read back as a decimal number
(`tokenValue`), never exceeds 2147483647 even though ten decimal digits could
encode up to `10^10 - 1`. -/
theorem truncP_and_token_bound :
    (∀ D : List Nat, truncP D ≤ 2147483647) ∧
    (∀ (hmac : Alg → List Nat → List Nat → List Nat) (c : Int) (p : OTPParams)
      (tok : List Nat), p.digits = 10 → generateOwnOTP hmac c p = some tok →
        tokenValue tok ≤ 2147483647) := by
  refine ⟨truncP_le_max, ?_⟩
  intro hmac c p tok hd h
  rw [generateOwnOTP_eq] at h
  injection h with h
  subst h
  rw [tokenValue_pad]
  calc truncP _ % 10 ^ p.digits
      ≤ truncP _ := Nat.mod_le _ _
    _ ≤ 2147483647 := truncP_le_max _

/-- C10 witness: a concrete digest for the first conjunct and the 10-digit
token `"0000000000"` from the all-zero HMAC stub for the second. -/
theorem truncP_and_token_bound_witness :
    truncP [255, 255, 255, 255, 255, 255, 255, 255, 255, 255, 255, 255, 255, 255,
      255, 255, 255, 255, 255, 255] ≤ 2147483647 ∧
    tokenValue [48, 48, 48, 48, 48, 48, 48, 48, 48, 48] ≤ 2147483647 :=
  ⟨truncP_and_token_bound.1 [255, 255, 255, 255, 255, 255, 255, 255, 255, 255,
      255, 255, 255, 255, 255, 255, 255, 255, 255, 255],
    truncP_and_token_bound.2 (fun a _ _ => List.replicate (digestLength a) 0) 0
      (OTPParams.mk Alg.SHA1 10 30 [1, 2, 3]) [48, 48, 48, 48, 48, 48, 48, 48, 48, 48]
      rfl (by decide)⟩

end ExpressUtils
